import Mathlib

/-!
Shallow embedding of the hlc utility library (buf.h, slice.h, vect.h,
str/str.c) and verification of its specified contracts.

Modelling conventions:
* `size_t` values are naturals; where the C code can wrap modulo 2^64 the
  definitions take the remainder `% W` with `W = 2^64` explicitly.
* The heap is ideal: allocation succeeds, `realloc` preserves the prefix of
  the old block and fills fresh cells with the sentinel `junk` (modelling
  uninitialized memory).
* A null pointer is `Option.none`; dereferencing it in the operations that
  must tolerate a zero-initialized argument is modelled by an `Option`
  result, `none` standing for the fault.
-/

/-- 2^64, one past the largest representable `size_t` value. -/
def W : Nat := 2 ^ 64

/-- Sentinel byte modelling uninitialized memory returned by malloc/realloc. -/
def junk : Nat := 170

/-- Contents of `realloc(p, n)` for an old block `s` (`none` = NULL pointer):
the old bytes survive up to `n`, any fresh tail is uninitialized. -/
def reallocL (s : Option (List Nat)) (n : Nat) : List Nat :=
  (s.getD []).take n ++ List.replicate (n - (s.getD []).length) junk

/-- Total byte read used by the string/vector loops whose accesses are proved
in range; out-of-range reads yield the uninitialized sentinel. -/
def readB (s : Option (List Nat)) (i : Nat) : Nat :=
  (s.getD []).getD i junk

/-- Byte write `p[i] = v`; writes through a null pointer or out of range are
never exercised under the proved preconditions. -/
def writeB (s : Option (List Nat)) (i : Nat) (v : Nat) : Option (List Nat) :=
  s.map (fun l => l.set i v)

/-! ## BUF (buf.h): macro-synthesized growable buffer -/

/-- State of a BUF_-declared buffer: backing cells, element count, capacity. -/
structure BufSt where
  data : List Nat
  len : Nat
  cap : Nat
deriving DecidableEq

/-- BUF_NEW: malloc space for two elements (uninitialized), len 0, cap 2. -/
def BUF_NEW : BufSt := ⟨List.replicate 2 junk, 0, 2⟩

/-- BUF_PUSH: if len == cap, realloc to twice the capacity and double cap;
then store the element at index len and increment len. -/
def BUF_PUSH (b : BufSt) (e : Nat) : BufSt :=
  let b1 : BufSt :=
    if b.len = b.cap then
      ⟨reallocL (some b.data) (b.cap * 2), b.len, b.cap * 2⟩
    else b
  ⟨b1.data.set b1.len e, b1.len + 1, b1.cap⟩

/-- A sequence of BUF_PUSH operations starting from a given buffer. -/
def bufPushList (es : List Nat) (b : BufSt) : BufSt :=
  es.foldl BUF_PUSH b

/-- `IsLeastPow2Ge m c`: `c` is the smallest power of two that is ≥ `m`. -/
def IsLeastPow2Ge (m c : Nat) : Prop :=
  (∃ k, c = 2 ^ k) ∧ m ≤ c ∧ ∀ d, (∃ k, d = 2 ^ k) → m ≤ d → c ≤ d

/-! ## SLICE (slice.h) -/

/-- slice_t: the buffer cells from the slice's pointer to the end of the
allocation, the length and capacity in elements, and the subview flag. -/
structure slice_t (α : Type) where
  buf : List α
  len : Nat
  cap : Nat
  sub : Bool

/-- slc_cap accessor. -/
def slc_cap {α} (s : slice_t α) : Nat := s.cap

/-- slc_len accessor. -/
def slc_len {α} (s : slice_t α) : Nat := s.len

/-- slc_ref: same descriptor with the subview flag set. -/
def slc_ref {α} (base : slice_t α) : slice_t α := { base with sub := true }

/-- slc_reslice: panics (`none`) if `lower ≥ cap`, `upper > cap` or
`lower ≥ upper`; otherwise offsets the buffer pointer by `lower`, sets the
length to `upper - lower` and shrinks the capacity by `lower`. -/
def slc_reslice {α} (base : slice_t α) (lower upper : Nat) : Option (slice_t α) :=
  let ret := slc_ref base
  if lower ≥ slc_cap base ∨ upper > slc_cap base then none
  else if lower ≥ upper then none
  else some { ret with buf := ret.buf.drop lower, len := upper - lower, cap := ret.cap - lower }

/-! ## VECT (vect.h): the generic byte-level core -/

/-- The `ts` bytes found at byte offset `off` of a buffer (out-of-range reads
are uninitialized memory). -/
def bytesAt (l : List Nat) (off ts : Nat) : List Nat :=
  (List.range ts).map (fun j => l.getD (off + j) junk)

/-- Loop body of `_vect_contains`: compare `ts` bytes at byte offset `i`
(the code advances the offset by the element index, not by `i * ts`),
for `k` remaining iterations. -/
def vcGo (buf : List Nat) (ts : Nat) (val : List Nat) : Nat → Nat → Bool
  | _, 0 => false
  | i, k + 1 => if bytesAt buf i ts = val then true else vcGo buf ts val (i + 1) k

/-- `_vect_contains(v, ts, val)` on a vector whose backing store holds the
byte list `buf` and whose length is `len`. -/
def _vect_contains (buf : List Nat) (len ts : Nat) (val : List Nat) : Bool :=
  vcGo buf ts val 0 len

/-- Modelled from the spec: the mandated semantics of `contains` — some
element `i < len`, whose bytes sit at byte offset `i * sizeof(T)`, is
bitwise equal to the probe value (stride = element size). -/
def specVectContains (buf : List Nat) (len ts : Nat) (val : List Nat) : Bool :=
  (List.range len).any (fun i => bytesAt buf (i * ts) ts = val)

/-- memcpy of a byte list `val` into `l` starting at offset `off`. -/
def memcpyL : List Nat → Nat → List Nat → List Nat
  | l, _, [] => l
  | l, off, b :: bs => memcpyL (l.set off b) (off + 1) bs

/-- _vect_t state: backing bytes plus the len/cap counters. -/
structure VSt where
  buf : List Nat
  len : Nat
  cap : Nat
deriving DecidableEq

/-- vect_init: null storage, zero length and capacity. -/
def vect_init : VSt := ⟨[], 0, 0⟩

/-- `_vect_resize(v, tsiz, new)`: `new = 0` requests `(cap + 1) * 2`; a
non-increasing target is a no-op; otherwise realloc and update cap
(allocation succeeds in the model). -/
def _vect_resize (v : VSt) (tsiz nw : Nat) : VSt :=
  let newcap := if nw = 0 then (v.cap + 1) * 2 else nw
  if newcap ≤ v.cap then v
  else ⟨reallocL (some v.buf) (tsiz * newcap), v.len, newcap⟩

/-- `_vect_append(v, t, ts)`: resize (doubling request) when `len + 1 ≥ cap`,
then increment len and memcpy the `ts` bytes of the element into place. -/
def _vect_append (v : VSt) (ts : Nat) (val : List Nat) : VSt :=
  let v1 := if v.len + 1 ≥ v.cap then _vect_resize v ts 0 else v
  let v2 : VSt := ⟨v1.buf, v1.len + 1, v1.cap⟩
  ⟨memcpyL v2.buf ((v2.len - 1) * ts) val, v2.len, v2.cap⟩

/-- `_vect_set(v, ind, ts, val)`: out-of-range returns 0 (`false`) and leaves
the vector unchanged, else overwrites the element bytes. -/
def _vect_set (v : VSt) (ind ts : Nat) (val : List Nat) : VSt × Bool :=
  if ind ≥ v.len then (v, false)
  else (⟨memcpyL v.buf (ind * ts) val, v.len, v.cap⟩, true)

/-- `_vect_clear(v)`: truncate to zero elements, capacity untouched. -/
def _vect_clear (v : VSt) : VSt := ⟨v.buf, 0, v.cap⟩

/-- Vector states reachable from `vect_init` by append, set and clear, for a
fixed element size `ts`. -/
inductive VReach (ts : Nat) : VSt → Prop
  | init : VReach ts vect_init
  | append (v : VSt) (val : List Nat) : VReach ts v → VReach ts (_vect_append v ts val)
  | set (v : VSt) (ind : Nat) (val : List Nat) : VReach ts v →
      VReach ts (_vect_set v ind ts val).1
  | clear (v : VSt) : VReach ts v → VReach ts (_vect_clear v)

/-! ### C1 -/

/-- C1 (as stated) fails: after 2 pushes on a fresh buffer the capacity is
still 2, while the smallest power of two ≥ max(2, 2+1) = 3 is 4.  The push
only doubles when a push *finds* `len = cap`, so after a push `len` may equal
`cap`. -/
theorem c1_counterexample :
    ¬ ((bufPushList [5, 6] BUF_NEW).len = 2 ∧
        IsLeastPow2Ge (max 2 (2 + 1)) (bufPushList [5, 6] BUF_NEW).cap) := by
  intro h
  have hcap : (bufPushList [5, 6] BUF_NEW).cap = 2 := by decide
  have h3 : max 2 (2 + 1) ≤ (bufPushList [5, 6] BUF_NEW).cap := h.2.2.1
  rw [hcap] at h3
  omega

theorem two_pow_le_of_lt_aux {k j : Nat} (h : 2 ^ k < 2 ^ j) : 2 ^ (k + 1) ≤ 2 ^ j := by
  have hkj : k < j := (Nat.pow_lt_pow_iff_right (by omega)).1 h
  exact Nat.pow_le_pow_right (by omega) (by omega)

/-- Invariant carried through the pushes: len counts the pushes and cap is
the least power of two ≥ max(2, len). -/
def BufGood (b : BufSt) : Prop :=
  IsLeastPow2Ge (max 2 b.len) b.cap

theorem bufGood_new : BufGood BUF_NEW := by
  refine ⟨⟨1, rfl⟩, by decide, ?_⟩
  rintro d ⟨k, rfl⟩ hd
  exact le_trans (Nat.le_max_left 2 _) hd

theorem bufGood_push (b : BufSt) (e : Nat) (h : BufGood b) (hlen : b.len ≤ b.cap) :
    BufGood (BUF_PUSH b e) ∧ (BUF_PUSH b e).len = b.len + 1 ∧ (BUF_PUSH b e).len ≤ (BUF_PUSH b e).cap := by
  obtain ⟨⟨k, hk⟩, hle, hleast⟩ := h
  have h2c : 2 ≤ b.cap := le_trans (Nat.le_max_left _ _) hle
  by_cases hfull : b.len = b.cap
  · -- the push doubles the capacity
    have hpush : BUF_PUSH b e =
        ⟨(reallocL (some b.data) (b.cap * 2)).set b.len e, b.len + 1, b.cap * 2⟩ := by
      simp [BUF_PUSH, hfull]
    rw [hpush]
    refine ⟨⟨⟨k + 1, by rw [pow_succ, hk, Nat.mul_comm]⟩, ?_, ?_⟩, rfl, by simp; omega⟩
    · simp only [max_le_iff]
      constructor <;> omega
    · rintro d ⟨j, rfl⟩ hd
      have hlt : 2 ^ k < 2 ^ j := by
        have : b.len + 1 ≤ 2 ^ j := le_trans (Nat.le_max_right 2 _) hd
        omega
      have := two_pow_le_of_lt_aux hlt
      calc b.cap * 2 = 2 ^ (k + 1) := by rw [pow_succ, hk]
        _ ≤ 2 ^ j := this
  · -- room available: capacity unchanged
    have hlt : b.len < b.cap := lt_of_le_of_ne hlen hfull
    have hpush : BUF_PUSH b e = ⟨b.data.set b.len e, b.len + 1, b.cap⟩ := by
      simp [BUF_PUSH, hfull]
    rw [hpush]
    refine ⟨⟨⟨k, hk⟩, ?_, ?_⟩, rfl, by simpa using hlt⟩
    · simp only [max_le_iff]
      constructor <;> omega
    · rintro d hdp hd
      exact hleast d hdp (le_trans (by simp only [max_le_iff] at hd ⊢; constructor <;> omega) hd)

theorem bufPushList_spec (es : List Nat) :
    ∀ b : BufSt, BufGood b → b.len ≤ b.cap →
      (bufPushList es b).len = b.len + es.length ∧ BufGood (bufPushList es b) ∧
        (bufPushList es b).len ≤ (bufPushList es b).cap := by
  induction es with
  | nil => intro b hg hl; exact ⟨by simp [bufPushList], hg, hl⟩
  | cons e es ih =>
    intro b hg hl
    obtain ⟨hg', hlen', hle'⟩ := bufGood_push b e hg hl
    have hstep : bufPushList (e :: es) b = bufPushList es (BUF_PUSH b e) := rfl
    rw [hstep]
    obtain ⟨h1, h2, h3⟩ := ih (BUF_PUSH b e) hg' hle'
    exact ⟨by rw [h1, hlen', List.length_cons]; omega, h2, h3⟩

/-- C1 (amended): after `n` pushes on a fresh buffer, `len = n` and `cap` is
the smallest power of two ≥ max(2, n) — the doubling fires when a push finds
`len = cap`, so after a push `len` may equal `cap` and `cap ≥ n + 1` fails. -/
theorem c1_amended (es : List Nat) :
    (bufPushList es BUF_NEW).len = es.length ∧
      IsLeastPow2Ge (max 2 es.length) (bufPushList es BUF_NEW).cap := by
  obtain ⟨h1, h2, _⟩ := bufPushList_spec es BUF_NEW bufGood_new (by decide)
  have h0 : BUF_NEW.len = 0 := rfl
  rw [h0, Nat.zero_add] at h1
  unfold BufGood at h2
  rw [h1] at h2
  exact ⟨h1, h2⟩

/-! ### C4 -/

/-- C4: with bounds 0 ≤ lo < hi ≤ cap, slc_reslice does not abort and yields
length hi − lo, capacity cap − lo, and element i of the view is element
lo + i of the base; any bounds violating lo < hi or hi ≤ cap abort. -/
theorem c4_reslice :
    (∀ (base : slice_t Nat) (lo hi : Nat), lo < hi → hi ≤ slc_cap base →
      ∃ r, slc_reslice base lo hi = some r ∧
        slc_len r = hi - lo ∧ slc_cap r = slc_cap base - lo ∧ r.sub = true ∧
        ∀ i, i < hi - lo → r.buf[i]? = base.buf[lo + i]?) ∧
    (∀ (base : slice_t Nat) (lo hi : Nat), ¬ (lo < hi ∧ hi ≤ slc_cap base) →
      slc_reslice base lo hi = none) := by
  constructor
  · intro base lo hi hlh hhc
    have h1 : ¬ (lo ≥ slc_cap base ∨ hi > slc_cap base) := by omega
    have h2 : ¬ lo ≥ hi := by omega
    refine ⟨⟨base.buf.drop lo, hi - lo, base.cap - lo, true⟩, ?_, rfl, rfl, rfl, ?_⟩
    · simp only [slc_reslice, h1, h2, if_false]
      rfl
    · intro i _
      exact List.getElem?_drop base.buf lo i
  · intro base lo hi h
    rcases Decidable.not_and_iff_or_not.1 h with h' | h'
    · have hge : lo ≥ hi := by omega
      by_cases hc : lo ≥ slc_cap base ∨ hi > slc_cap base
      · simp only [slc_reslice, hc, if_true]
      · simp only [slc_reslice, hc, if_false, hge, if_true]
    · have hhi : hi > slc_cap base := by omega
      simp only [slc_reslice, Or.inr hhi, if_true]

/-- C4 witness: a concrete in-bounds reslice of a 4-element base. -/
theorem c4_reslice_witness :
    ∃ r, slc_reslice (⟨[10, 20, 30, 40], 4, 4, false⟩ : slice_t Nat) 1 3 = some r ∧
      slc_len r = 3 - 1 ∧ slc_cap r = slc_cap (⟨[10, 20, 30, 40], 4, 4, false⟩ : slice_t Nat) - 1 ∧
      r.sub = true ∧
      ∀ i, i < 3 - 1 → r.buf[i]? = ([10, 20, 30, 40] : List Nat)[1 + i]? :=
  c4_reslice.1 ⟨[10, 20, 30, 40], 4, 4, false⟩ 1 3 (by decide) (by decide)

/-! ### C6 -/

/-- C6: `_vect_contains` advances its memcmp window by the element *index*
instead of the element byte offset.  On the 2-byte-element vector with byte
store [1,2,3,4] (elements (1,2) and (3,4)) it reports the straddling byte
pair (2,3) as present and misses the genuine element (3,4); the mandated
stride-`sizeof(T)` semantics gives the opposite answers on both probes. -/
theorem c6_contains_bug :
    _vect_contains [1, 2, 3, 4] 2 2 [2, 3] = true ∧
      specVectContains [1, 2, 3, 4] 2 2 [2, 3] = false ∧
      _vect_contains [1, 2, 3, 4] 2 2 [3, 4] = false ∧
      specVectContains [1, 2, 3, 4] 2 2 [3, 4] = true := by
  decide

/-! ### C10 -/

theorem vreach_core {ts : Nat} (v : VSt) (h : VReach ts v) :
    (v.len = 0 ∧ v.cap = 0) ∨ v.len < v.cap := by
  induction h with
  | init => exact Or.inl ⟨rfl, rfl⟩
  | append w val _ ih =>
    right
    rcases ih with ⟨hl, hc⟩ | hlt
    · simp [_vect_append, _vect_resize, hl, hc]
    · by_cases hfull : w.len + 1 ≥ w.cap
      · have : ¬ (w.cap + 1) * 2 ≤ w.cap := by omega
        simp only [_vect_append, _vect_resize, hfull, if_true, if_pos rfl, this, if_false]
        omega
      · simp only [_vect_append, hfull, if_false]
        omega
  | set w ind val _ ih =>
    by_cases hout : ind ≥ w.len
    · simpa [_vect_set, hout] using ih
    · simpa [_vect_set, hout] using ih
  | clear w _ ih =>
    rcases ih with ⟨_, hc⟩ | hlt
    · exact Or.inl ⟨rfl, hc⟩
    · right; simp only [_vect_clear]; omega

/-- C10: in every vector state reachable from `vect_init` by append, set and
clear, a positive capacity strictly exceeds the length — append resizes
exactly when `len + 1 ≥ cap`, so a successful append always leaves a spare
slot. -/
theorem c10_invariant (ts : Nat) (v : VSt) (h : VReach ts v) (hc : 0 < v.cap) :
    v.len < v.cap := by
  rcases vreach_core v h with ⟨_, hc0⟩ | hlt
  · omega
  · exact hlt

/-- C10 witness: after one append of a 4-byte element the state has
len 1 < cap 2. -/
theorem c10_invariant_witness :
    (_vect_append vect_init 4 [1, 0, 0, 0]).len < (_vect_append vect_init 4 [1, 0, 0, 0]).cap :=
  c10_invariant 4 _ (VReach.append vect_init [1, 0, 0, 0] VReach.init) (by decide)

/-! ## STRING (str/str.c) -/

/-- string_t: `s` is the allocated block behind the start pointer (`none` for
a NULL pointer), `len` is the offset of the end pointer `e`, `cap` the stored
capacity in bytes (including the null slot). -/
structure Str where
  s : Option (List Nat)
  len : Nat
  cap : Nat
deriving DecidableEq

/-- A zero-initialized string_t: null pointers, zero capacity. -/
def strZero : Str := ⟨none, 0, 0⟩

/-- str_new: calloc STR_INITIAL_BUFSIZ = 32 zeroed bytes, e = s, cap = 32. -/
def str_new : Str := ⟨some (List.replicate 32 0), 0, 32⟩

/-- str_free: release the block, null the pointers, zero the capacity. -/
def str_free (_ : Str) : Str := strZero

/-- str_cap: reported capacity, one less than the stored one when nonzero. -/
def str_cap (t : Str) : Nat := if t.cap = 0 then 0 else t.cap - 1

/-- str_len: `e - s`. -/
def str_len (t : Str) : Nat := t.len

/-- str_grow: computes `cap + delta` (with the +1 zero-start compensation),
clamps to STR_SIZE_MAX = 2^64 − 1 with failure status when `delta` would
overflow, and on the `delta = 0` path sets the failure status on doubling
overflow but then unconditionally assigns `cap * 2` (mod 2^64) to the new
capacity; finally reallocates, re-anchors `e`, stores the new capacity.
Returns the new string and the `int` status (1 success, 0 failure). -/
def str_grow (t : Str) (delta : Nat) : Str × Int :=
  let oldlen := t.len
  let n1 := (t.cap + delta) % W
  let n2 := if t.cap = 0 then (n1 + 1) % W else n1
  let p3 : Nat × Int := if W - 1 - delta < t.cap then (W - 1, 0) else (n2, 1)
  let p4 : Nat × Int :=
    if delta = 0 then (t.cap * 2 % W, if W - 1 - t.cap < t.cap then 0 else p3.2)
    else p3
  (⟨some (reallocL t.s p4.1), oldlen, p4.1⟩, p4.2)

/-- str_reserve: `-1` when the spare reported capacity already covers delta,
else delegate to str_grow and forward its status. -/
def str_reserve (t : Str) (delta : Nat) : Str × Int :=
  if str_cap t - str_len t ≥ delta then (t, -1) else str_grow t delta

/-- str_compact: realloc down to len + 1 bytes and store that capacity
(allocation succeeds in the model, so the failure no-op path is absent). -/
def str_compact (t : Str) : Str :=
  ⟨some (reallocL t.s (t.len + 1)), t.len, t.len + 1⟩

/-- str_truncate: no-op if len is not smaller than the current length, else
move `e` back and write the terminator there. -/
def str_truncate (t : Str) (n : Nat) : Str :=
  if n ≥ t.len then t else ⟨writeB t.s n 0, n, t.cap⟩

/-- str_reset: truncate to zero. -/
def str_reset (t : Str) : Str := str_truncate t 0

/-- str_set: abort (`none`) when `i > len` — note the strict `>`, so `i = len`
is accepted — else overwrite the byte at `i`. -/
def str_set (t : Str) (i c : Nat) : Option Str :=
  if i > t.len then none else some ⟨writeB t.s i c, t.len, t.cap⟩

/-- str_get: abort (`none`) when `i > len`, else the byte at `i`. -/
def str_get (t : Str) (i : Nat) : Option Nat :=
  if i > t.len then none else some (readB t.s i)

/-- The loop of str_from: copy the walked byte to `*e`; stop after copying a
terminator; otherwise advance `e` and double the buffer (via `str_grow 0`)
when `e - s` reaches the stored capacity, bailing out to a fresh `str_new`
when the grow reports failure.  The argument list holds the bytes of the
C-string array being walked. -/
def str_fromLoop : List Nat → Str → Str
  | [], ret => ret
  | c :: rest, ret =>
    let ret1 : Str := ⟨writeB ret.s ret.len c, ret.len, ret.cap⟩
    if c = 0 then ret1
    else
      let ret2 : Str := ⟨ret1.s, ret1.len + 1, ret1.cap⟩
      if ret2.len = ret2.cap then
        let g := str_grow ret2 0
        if g.2 = 0 then str_new else str_fromLoop rest g.1
      else str_fromLoop rest ret2

/-- str_from on a non-null C string, given as the byte contents of the array
the walk reads (the terminator is one of the listed bytes). -/
def str_fromA (cs : List Nat) : Str := str_fromLoop cs str_new

/-- str_from: a NULL argument yields str_new(). -/
def str_from : Option (List Nat) → Str
  | none => str_new
  | some cs => str_fromA cs

/-- str_cstr: the start pointer. -/
def str_cstr (t : Str) : Option (List Nat) := t.s

/-- str_clone: a zero-length string clones to the zero descriptor (no
allocation), otherwise clone via `str_from(str_cstr(str))`. -/
def str_clone (t : Str) : Str :=
  if str_len t = 0 then strZero else str_from (str_cstr t)

/-- Copy loop: move `k` bytes read from `src` starting at offset `pos` to the
end of `w`, advancing `e` (used by str_concat's do-while and str_append's
while loop). -/
def copyN (src : Option (List Nat)) : Nat → Nat → Str → Str
  | _, 0, w => w
  | pos, k + 1, w =>
      copyN src (pos + 1) k ⟨writeB w.s w.len (readB src pos), w.len + 1, w.cap⟩

/-- One operand's copy phase in str_concat: skipped entirely when the
operand's start pointer is NULL, otherwise a do-while that always runs at
least once, so it moves `max 1 len` bytes. -/
def concatCopy (so : Option (List Nat)) (n : Nat) (w : Str) : Str :=
  match so with
  | none => w
  | some _ => copyN so 0 (max 1 n) w

/-- str_concat: grow a fresh str_new by `len a + len b` (size_t sum), return
it as-is if the grow fails; otherwise run, for each non-NULL operand, a
do-while copy that always copies at least one byte — `max 1 len` bytes —
then write the terminator at the final `e`. -/
def str_concat (a b : Str) : Str :=
  let work := str_new
  let g := str_grow work ((str_len a + str_len b) % W)
  if g.2 = 0 then g.1
  else
    let w2 := concatCopy b.s b.len (concatCopy a.s a.len g.1)
    ⟨writeB w2.s w2.len 0, w2.len, w2.cap⟩

/-- The unconditional terminator write `*dst->e = '\0'` that ends
str_append's copy: dereferencing a NULL `e`, or writing past the end of the
allocated block, is a fault (`none`). -/
def termWrite (w : Str) : Option Str :=
  match w.s with
  | none => none
  | some l =>
      if w.len < l.length then some ⟨some (l.set w.len 0), w.len, w.cap⟩ else none

/-- str_append: reserve room for `len src` more bytes; on reserve failure
(status 0) stop after the reserve's reallocation; otherwise copy the bytes of
src after `e` and write the terminator at the new end — a write that faults
(`none`) when the destination still has no usable cell for it (NULL end
pointer or zero-sized block). -/
def str_append (dst src : Str) : Option Str :=
  let r := str_reserve dst (str_len src)
  if r.2 = 0 then some r.1
  else termWrite (copyN src.s 0 (str_len src) r.1)

/-- str_equal: false on a length mismatch, else bytewise comparison of the
first `len` bytes. -/
def str_equal (a b : Str) : Bool :=
  if a.len ≠ b.len then false
  else (List.range a.len).all (fun i => readB a.s i == readB b.s i)

/-- Byte read through a pointer, `none` when the pointer is NULL or past the
allocated block (a fault in the C code). -/
def byteAt (s : Option (List Nat)) (i : Nat) : Option Nat :=
  match s with
  | none => none
  | some l => l[i]?

/-- The strcmp-style loop of str_compare, walking both blocks in lockstep;
`none` models the fault of dereferencing NULL or running past a block. -/
def cmpL : List Nat → List Nat → Option Int
  | [], _ => none
  | _, [] => none
  | x :: xs, y :: ys =>
      if x = y ∧ x ≠ 0 then cmpL xs ys else some ((x : Int) - (y : Int))

/-- str_compare: both start pointers are dereferenced by the loop condition,
so a NULL operand faults. -/
def str_compare (a b : Str) : Option Int :=
  match a.s, b.s with
  | some la, some lb => cmpL la lb
  | _, _ => none

/-- The scan loop of str_contains: at most `k` further iterations of
`walk <= e` remain; `sub` is the unread remainder of the needle (the needle
is given without its terminator); the needle-exhausted check precedes the
dereference of `walk`. -/
def containsGo (buf : Option (List Nat)) (needle : List Nat) :
    List Nat → Nat → Nat → Option Bool
  | _, _, 0 => some false
  | sub, p, k + 1 =>
    match sub with
    | [] => some true
    | n :: ns =>
      match byteAt buf p with
      | none => none
      | some c =>
        if c ≠ n then containsGo buf needle needle (p + 1) k
        else containsGo buf needle ns (p + 1) k

/-- str_contains: walk from `s` to `e` inclusive. -/
def str_contains (t : Str) (needle : List Nat) : Option Bool :=
  containsGo t.s needle needle 0 (t.len + 1)

/-- Shared prefix-comparison loop: compare the pattern bytes (pattern given
without its terminator) against the buffer from position `p` on. -/
def prefGo (buf : Option (List Nat)) : Nat → List Nat → Option Bool
  | _, [] => some true
  | p, c :: cs =>
    match byteAt buf p with
    | none => none
    | some b => if b ≠ c then some false else prefGo buf (p + 1) cs

/-- str_prefixed: compare the pattern against the start of the string; the
loop dereferences `walk` whenever the pattern is nonempty. -/
def str_prefixed (t : Str) (pref : List Nat) : Option Bool :=
  prefGo t.s 0 pref

/-- str_suffixed: step `e` back by the pattern length; when that walks below
`s`, return 0 without touching the buffer; else compare up to `e`. -/
def str_suffixed (t : Str) (suff : List Nat) : Option Bool :=
  if t.len < suff.length then some false
  else prefGo t.s (t.len - suff.length) suff

/-- The allocation bookkeeping the string code maintains: a NULL buffer only
for capacity 0, an allocated block of exactly `cap` bytes otherwise, with
`cap` a representable size_t. -/
def Alloc (t : Str) : Prop :=
  (match t.s with
   | none => t.cap = 0
   | some l => l.length = t.cap) ∧ t.cap < W

/-- The claimed public invariant: `len ≤ cap` through the reported accessors,
and a terminator at offset `len` whenever the stored capacity is positive. -/
def StrInv (t : Str) : Prop :=
  str_len t ≤ str_cap t ∧ (0 < t.cap → readB t.s t.len = 0)

/-- Full inductive invariant: allocation bookkeeping plus the claimed
invariant. -/
def InvFull (t : Str) : Prop := Alloc t ∧ StrInv t

instance (t : Str) : Decidable (Alloc t) := by
  unfold Alloc
  cases t.s <;> exact inferInstance

instance (t : Str) : Decidable (StrInv t) := by
  unfold StrInv; exact inferInstance

instance (t : Str) : Decidable (InvFull t) := by
  unfold InvFull; exact inferInstance

theorem reallocL_length (s : Option (List Nat)) (n : Nat) : (reallocL s n).length = n := by
  simp only [reallocL, List.length_append, List.length_take, List.length_replicate]
  omega

theorem readB_reallocL (s : Option (List Nat)) (n i : Nat)
    (hi : i < (s.getD []).length) (hin : i < n) :
    readB (some (reallocL s n)) i = readB s i := by
  have h1 : i < ((s.getD []).take n).length := by
    rw [List.length_take]; omega
  unfold readB reallocL
  simp only [Option.getD_some]
  rw [List.getD_eq_getElem?_getD, List.getD_eq_getElem?_getD,
    List.getElem?_append_left h1, List.getElem?_take_of_lt hin]

theorem readB_writeB_self (l : List Nat) (i v : Nat) (h : i < l.length) :
    readB (writeB (some l) i v) i = v := by
  simp only [readB, writeB, Option.map_some', Option.getD_some,
    List.getD_eq_getElem?_getD, List.getElem?_set_self (by simpa using h), Option.getD_some]

theorem readB_writeB_ne (s : Option (List Nat)) (i j v : Nat) (h : i ≠ j) :
    readB (writeB s i v) j = readB s j := by
  cases s with
  | none => rfl
  | some l =>
      simp only [readB, writeB, Option.map_some', Option.getD_some,
        List.getD_eq_getElem?_getD, List.getElem?_set_ne h]

/-! ### C2 -/

/-- C2 (as stated) fails: on a zero-initialized string, str_grow(str, 0)
returns success (1) yet the reported capacity afterwards is 0, not at least
31 — the `delta == 0` doubling path overwrites the zero-start compensation
with `0 * 2`. -/
theorem c2_counterexample :
    (str_grow strZero 0).2 = 1 ∧ str_cap (str_grow strZero 0).1 = 0 ∧
      ¬ 31 ≤ str_cap (str_grow strZero 0).1 := by
  decide

/-- C2 (amended): for every string of zero internal capacity, str_grow(str,0)
returns success (1) but leaves the reported capacity at 0: the doubling path
assigns `cap * 2 = 0`, discarding the zero-start compensation. -/
theorem c2_amended (t : Str) (h : t.cap = 0) :
    (str_grow t 0).2 = 1 ∧ str_cap (str_grow t 0).1 = 0 := by
  simp [str_grow, h, str_cap]

/-- C2 witness: the amended statement at the zero-initialized string. -/
theorem c2_amended_witness :
    (str_grow strZero 0).2 = 1 ∧ str_cap (str_grow strZero 0).1 = 0 :=
  c2_amended strZero rfl

/-! ### C9 -/

/-- C9: on a string with internal capacity 2^63 (> STR_SIZE_MAX / 2),
str_grow(str, 0) does report failure (0), but the capacity wraps to
`2 * 2^63 mod 2^64 = 0` instead of being clamped to STR_SIZE_MAX: the
clamping assignment inside the `delta == 0` branch is dead, overwritten by
the unconditional `newcap = str->cap * 2`. -/
theorem c9_grow_overflow_bug :
    (str_grow ⟨none, 0, 2 ^ 63⟩ 0).2 = 0 ∧
      (str_grow ⟨none, 0, 2 ^ 63⟩ 0).1.cap = 0 ∧
      (str_grow ⟨none, 0, 2 ^ 63⟩ 0).1.cap ≠ W - 1 := by
  decide

/-! ### C5 -/

/-- C5: the copy loops of str_concat are do-while loops, so a length-0
operand with an allocated buffer (as produced by str_new) still contributes
one byte.  Concatenating the empty str_new() with the one-byte string "x"
yields length 2 — a stray 0 byte followed by 'x' — instead of length 1. -/
theorem c5_concat_bug :
    str_len (str_concat str_new (str_fromA [120, 0])) = 2 ∧
      str_len str_new + str_len (str_fromA [120, 0]) = 1 ∧
      readB (str_concat str_new (str_fromA [120, 0])).s 0 = 0 ∧
      readB (str_concat str_new (str_fromA [120, 0])).s 1 = 120 := by
  decide

/-! ### C7 -/

/-- C7: str_compare dereferences both start pointers in its loop condition,
so two zero-initialized strings fault (modelled `none`) instead of comparing
equal; str_contains and str_prefixed fault for any nonempty pattern, while
an empty needle and str_suffixed are tolerated. -/
theorem c7_zero_init_bug :
    str_compare strZero strZero = none ∧
      str_prefixed strZero [97] = none ∧
      str_contains strZero [97] = none ∧
      str_contains strZero [] = some true ∧
      str_suffixed strZero [97] = some false ∧
      str_suffixed strZero [] = some true := by
  decide

/-! ### C3 counterexample -/

/-- C3 (as stated) fails: str_set accepts index `len` (the bound check is
`i > len`), and writing a nonzero byte there on the fresh str_new() destroys
the null terminator: capacity is positive but the byte at offset `len` is 97. -/
theorem c3_counterexample :
    (str_set str_new 0 97).map (fun t => decide (StrInv t)) = some false := by
  decide

/-! ### C8 counterexample -/

/-- C8 (as stated) fails: writing an interior 0 byte with str_set makes
str_clone (which copies via str_from on the C string, stopping at the first
0 byte) truncate, and str_equal then reports false on the clone. -/
theorem c8_counterexample :
    (str_set (str_fromA [97, 98, 0]) 0 0).map
        (fun t => str_equal t (str_clone t)) = some false := by
  decide

/-! ### Characterizations of str_grow's paths -/

theorem str_grow_delta0 (t : Str) (hc : t.cap < W) :
    str_grow t 0 = (⟨some (reallocL t.s (t.cap * 2 % W)), t.len, t.cap * 2 % W⟩,
      if W - 1 - t.cap < t.cap then 0 else 1) := by
  have h1 : ¬ (W - 1 < t.cap) := by omega
  unfold str_grow
  simp [h1]

theorem str_grow_pos_clamp (t : Str) (delta : Nat) (hd : 0 < delta)
    (h : W - 1 - delta < t.cap) :
    str_grow t delta = (⟨some (reallocL t.s (W - 1)), t.len, W - 1⟩, 0) := by
  unfold str_grow
  simp [Nat.pos_iff_ne_zero.1 hd, h]

theorem str_grow_pos_noclamp (t : Str) (delta : Nat) (hd : 0 < delta) (hc0 : t.cap ≠ 0)
    (h : ¬ W - 1 - delta < t.cap) (hlt : t.cap + delta < W) :
    str_grow t delta = (⟨some (reallocL t.s (t.cap + delta)), t.len, t.cap + delta⟩, 1) := by
  unfold str_grow
  simp [Nat.pos_iff_ne_zero.1 hd, hc0, h, Nat.mod_eq_of_lt hlt]

theorem str_grow_pos_cap0 (t : Str) (delta : Nat) (hd : 0 < delta) (hc0 : t.cap = 0)
    (hlt : delta + 1 < W) :
    str_grow t delta = (⟨some (reallocL t.s (delta + 1)), t.len, delta + 1⟩, 1) := by
  have h1 : ¬ (W - 1 - delta < t.cap) := by omega
  have h2 : delta % W = delta := Nat.mod_eq_of_lt (by omega)
  unfold str_grow
  simp [Nat.pos_iff_ne_zero.1 hd, hc0, h1, h2, Nat.mod_eq_of_lt hlt]

/-! ### Invariant preservation helpers -/

theorem copyN_facts (src : Option (List Nat)) :
    ∀ (k pos : Nat) (w : Str),
      (copyN src pos k w).len = w.len + k ∧ (copyN src pos k w).cap = w.cap ∧
        ∀ l, w.s = some l →
          ∃ l', (copyN src pos k w).s = some l' ∧ l'.length = l.length := by
  intro k
  induction k with
  | zero => intro pos w; exact ⟨rfl, rfl, fun l hl => ⟨l, hl, rfl⟩⟩
  | succ n ih =>
    intro pos w
    obtain ⟨h1, h2, h3⟩ := ih (pos + 1) ⟨writeB w.s w.len (readB src pos), w.len + 1, w.cap⟩
    have hstep : copyN src pos (n + 1) w =
        copyN src (pos + 1) n ⟨writeB w.s w.len (readB src pos), w.len + 1, w.cap⟩ := rfl
    rw [hstep]
    refine ⟨by rw [h1]; show w.len + 1 + n = w.len + (n + 1); omega, by rw [h2], ?_⟩
    intro l hl
    obtain ⟨l', hl', hlen⟩ := h3 (l.set w.len (readB src pos)) (by simp [writeB, hl])
    exact ⟨l', hl', by rw [hlen, List.length_set]⟩

/-- Writing the terminator at `e` on a properly allocated state with spare
room restores the full invariant. -/
theorem invFull_term (w : Str) (hw : ∃ l, w.s = some l ∧ l.length = w.cap)
    (hcW : w.cap < W) (hlt : w.len < w.cap) :
    InvFull ⟨writeB w.s w.len 0, w.len, w.cap⟩ := by
  obtain ⟨l, hl, hlen⟩ := hw
  refine ⟨⟨?_, hcW⟩, ?_, ?_⟩
  · rw [hl]
    simp [writeB, List.length_set, hlen]
  · simp only [str_len, str_cap]
    have hne : ¬ w.cap = 0 := by omega
    simp only [hne, if_false]
    omega
  · intro _
    rw [hl]
    exact readB_writeB_self l w.len 0 (by omega)

theorem invFull_new : InvFull str_new := by decide

theorem invFull_zero : InvFull strZero := by decide

/-- The result of reallocating a properly terminated string to `n ≥ len + 1`
bytes keeps the invariant: the surviving prefix contains the terminator. -/
theorem invFull_realloc (t : Str) (n : Nat) (l : List Nat) (hl : t.s = some l)
    (hllen : l.length = t.cap) (hnW : n < W) (hlen_lt : t.len < t.cap) (hle : t.len < n)
    (hterm : readB t.s t.len = 0) :
    InvFull ⟨some (reallocL t.s n), t.len, n⟩ := by
  refine ⟨⟨?_, hnW⟩, ?_, ?_⟩
  · simpa using reallocL_length t.s n
  · simp only [str_len, str_cap]
    have hne : ¬ n = 0 := by omega
    simp only [hne, if_false]
    omega
  · intro _
    rw [readB_reallocL t.s n t.len (by rw [hl]; simp only [Option.getD_some]; omega) hle]
    exact hterm

theorem str_len_le_of_inv (t : Str) (h : InvFull t) : t.len ≤ t.cap - 1 ∧ t.len < W := by
  obtain ⟨⟨_, hcW⟩, hlc, _⟩ := h
  simp only [str_len, str_cap] at hlc
  by_cases hc : t.cap = 0
  · simp [hc] at hlc
    omega
  · simp only [hc, if_false] at hlc
    omega

theorem str_some_of_cap_pos (t : Str) (h : InvFull t) (hc : 0 < t.cap) :
    ∃ l, t.s = some l ∧ l.length = t.cap := by
  obtain ⟨⟨hA, _⟩, _, _⟩ := h
  cases hs : t.s with
  | none => rw [hs] at hA; omega
  | some l => exact ⟨l, rfl, by rw [hs] at hA; exact hA⟩

/-- str_grow preserves the invariant away from the two bad paths: growing a
zero-capacity string by a positive delta (the fresh tail, terminator slot
included, stays uninitialized) and the `delta = 0` doubling overflow (the
capacity wraps). -/
theorem invFull_grow (t : Str) (delta : Nat) (h : InvFull t) (hdW : delta < W)
    (hz : 0 < t.cap ∨ delta = 0) (hov : delta = 0 → 2 * t.cap < W) :
    InvFull (str_grow t delta).1 := by
  have hcW : t.cap < W := h.1.2
  have hterm := h.2.2
  obtain ⟨hlc, hlW⟩ := str_len_le_of_inv t h
  by_cases hd0 : delta = 0
  · subst hd0
    rw [str_grow_delta0 t hcW]
    by_cases hc0 : t.cap = 0
    · have hl0 : t.len = 0 := by omega
      have hm : t.cap * 2 % W = 0 := by simp [hc0]
      show InvFull ⟨some (reallocL t.s (t.cap * 2 % W)), t.len, t.cap * 2 % W⟩
      rw [hm, hl0]
      refine ⟨⟨?_, ?_⟩, ?_, ?_⟩
      · simpa using reallocL_length t.s 0
      · show (0 : Nat) < W
        decide
      · simp [str_len, str_cap]
      · intro hpos
        exact absurd (show (0 : Nat) < 0 from hpos) (by omega)
    · have hcpos : 0 < t.cap := Nat.pos_of_ne_zero hc0
      obtain ⟨l, hl, hllen⟩ := str_some_of_cap_pos t h hcpos
      have hm : t.cap * 2 % W = t.cap * 2 := Nat.mod_eq_of_lt (by have := hov rfl; omega)
      show InvFull ⟨some (reallocL t.s (t.cap * 2 % W)), t.len, t.cap * 2 % W⟩
      rw [hm]
      exact invFull_realloc t (t.cap * 2) l hl hllen (by have := hov rfl; omega)
        (by omega) (by omega) (hterm hcpos)
  · have hdpos : 0 < delta := Nat.pos_of_ne_zero hd0
    have hcpos : 0 < t.cap := hz.resolve_right hd0
    obtain ⟨l, hl, hllen⟩ := str_some_of_cap_pos t h hcpos
    by_cases hclamp : W - 1 - delta < t.cap
    · rw [str_grow_pos_clamp t delta hdpos hclamp]
      show InvFull ⟨some (reallocL t.s (W - 1)), t.len, W - 1⟩
      exact invFull_realloc t (W - 1) l hl hllen (by omega) (by omega) (by omega)
        (hterm hcpos)
    · rw [str_grow_pos_noclamp t delta hdpos (by omega) hclamp (by omega)]
      show InvFull ⟨some (reallocL t.s (t.cap + delta)), t.len, t.cap + delta⟩
      exact invFull_realloc t (t.cap + delta) l hl hllen (by omega) (by omega) (by omega)
        (hterm hcpos)

theorem str_fromLoop_cons (c : Nat) (rest : List Nat) (ret : Str) :
    str_fromLoop (c :: rest) ret =
      if c = 0 then ⟨writeB ret.s ret.len c, ret.len, ret.cap⟩
      else if ret.len + 1 = ret.cap then
        (if (str_grow ⟨writeB ret.s ret.len c, ret.len + 1, ret.cap⟩ 0).2 = 0 then str_new
         else str_fromLoop rest (str_grow ⟨writeB ret.s ret.len c, ret.len + 1, ret.cap⟩ 0).1)
      else str_fromLoop rest ⟨writeB ret.s ret.len c, ret.len + 1, ret.cap⟩ := rfl

theorem fromLoop_inv (cs : List Nat) :
    ∀ ret : Str, (∃ l, ret.s = some l ∧ l.length = ret.cap) → ret.cap < W →
      ret.len < ret.cap → 0 ∈ cs → InvFull (str_fromLoop cs ret) := by
  induction cs with
  | nil => intro ret _ _ _ h0; exact absurd h0 (List.not_mem_nil 0)
  | cons c rest ih =>
    intro ret hal hcW hlt h0
    obtain ⟨l, hl, hllen⟩ := hal
    rw [str_fromLoop_cons]
    by_cases hc : c = 0
    · rw [if_pos hc, hc]
      exact invFull_term ret ⟨l, hl, hllen⟩ hcW hlt
    · rw [if_neg hc]
      have h0r : 0 ∈ rest := by
        rcases List.mem_cons.1 h0 with h | h
        · exact absurd h.symm hc
        · exact h
      have hal2 : ∃ l2, (⟨writeB ret.s ret.len c, ret.len + 1, ret.cap⟩ : Str).s = some l2 ∧
          l2.length = ret.cap := by
        refine ⟨l.set ret.len c, ?_, by rw [List.length_set]; exact hllen⟩
        show writeB ret.s ret.len c = some (l.set ret.len c)
        rw [hl]; rfl
      by_cases hfull : ret.len + 1 = ret.cap
      · rw [if_pos hfull]
        have hg := str_grow_delta0 ⟨writeB ret.s ret.len c, ret.len + 1, ret.cap⟩ hcW
        rw [hg]
        by_cases hov : W - 1 - ret.cap < ret.cap
        · rw [if_pos (by simp [hov])]
          exact invFull_new
        · rw [if_neg (by simp [hov])]
          have h2c : ret.cap * 2 < W := by omega
          have hm : ret.cap * 2 % W = ret.cap * 2 := Nat.mod_eq_of_lt h2c
          obtain ⟨l2, hl2, hl2len⟩ := hal2
          refine ih _ ⟨reallocL (writeB ret.s ret.len c) (ret.cap * 2 % W), rfl, ?_⟩ ?_ ?_ h0r
          · rw [reallocL_length]
          · show ret.cap * 2 % W < W
            rw [hm]; omega
          · show ret.len + 1 < ret.cap * 2 % W
            rw [hm]; omega
      · rw [if_neg hfull]
        exact ih _ hal2 hcW (show ret.len + 1 < ret.cap by omega) h0r

theorem invFull_fromA (cs : List Nat) (h0 : 0 ∈ cs) : InvFull (str_fromA cs) :=
  fromLoop_inv cs str_new ⟨List.replicate 32 0, rfl, by decide⟩ (by decide) (by decide) h0

theorem invFull_truncate (t : Str) (n : Nat) (h : InvFull t) : InvFull (str_truncate t n) := by
  unfold str_truncate
  by_cases hn : n ≥ t.len
  · rwa [if_pos hn]
  · rw [if_neg hn]
    obtain ⟨hlc, _⟩ := str_len_le_of_inv t h
    have hcpos : 0 < t.cap := by omega
    obtain ⟨l, hl, hllen⟩ := str_some_of_cap_pos t h hcpos
    exact invFull_term ⟨t.s, n, t.cap⟩ ⟨l, hl, hllen⟩ h.1.2 (show n < t.cap by omega)

theorem invFull_set (t : Str) (i c : Nat) (u : Str) (h : InvFull t) (hi : i < str_len t)
    (hu : str_set t i c = some u) : InvFull u := by
  unfold str_set at hu
  have hle : ¬ i > t.len := by
    simp only [str_len] at hi; omega
  rw [if_neg hle] at hu
  injection hu with hu
  subst hu
  obtain ⟨hlc, hlW⟩ := str_len_le_of_inv t h
  have hcpos : 0 < t.cap := by
    simp only [str_len] at hi; omega
  obtain ⟨l, hl, hllen⟩ := str_some_of_cap_pos t h hcpos
  refine ⟨⟨?_, h.1.2⟩, ?_, ?_⟩
  · rw [hl]
    show (l.set i c).length = t.cap
    rw [List.length_set]; exact hllen
  · exact h.2.1
  · intro _
    show readB (writeB t.s i c) t.len = 0
    rw [readB_writeB_ne t.s i t.len c (by simp only [str_len] at hi; omega)]
    exact h.2.2 hcpos

theorem invFull_compact (t : Str) (h : InvFull t) (hc : 0 < t.cap) :
    InvFull (str_compact t) := by
  obtain ⟨l, hl, hllen⟩ := str_some_of_cap_pos t h hc
  obtain ⟨hlc, hlW⟩ := str_len_le_of_inv t h
  have hcW : t.cap < W := h.1.2
  exact invFull_realloc t (t.len + 1) l hl hllen (by omega) (by omega) (by omega) (h.2.2 hc)

theorem invFull_clone (t : Str) (h : InvFull t) : InvFull (str_clone t) := by
  unfold str_clone
  by_cases h0 : str_len t = 0
  · rw [if_pos h0]
    exact invFull_zero
  · rw [if_neg h0]
    have hlpos : 0 < t.len := Nat.pos_of_ne_zero (fun he => h0 he)
    obtain ⟨hlc, _⟩ := str_len_le_of_inv t h
    have hcpos : 0 < t.cap := by omega
    obtain ⟨l, hl, hllen⟩ := str_some_of_cap_pos t h hcpos
    have hlt : t.len < l.length := by omega
    have hget : l[t.len] = 0 := by
      have ht := h.2.2 hcpos
      rw [hl] at ht
      have : l.getD t.len junk = 0 := ht
      rwa [List.getD_eq_getElem?_getD, List.getElem?_eq_getElem hlt, Option.getD_some] at this
    have h0mem : 0 ∈ l := hget ▸ List.getElem_mem hlt
    show InvFull (str_from (str_cstr t))
    rw [str_cstr, hl]
    exact invFull_fromA l h0mem

theorem concatCopy_facts (so : Option (List Nat)) (n : Nat) (w : Str) :
    (concatCopy so n w).cap = w.cap ∧ w.len ≤ (concatCopy so n w).len ∧
      (concatCopy so n w).len ≤ w.len + n + 1 ∧
      ∀ l, w.s = some l → ∃ l', (concatCopy so n w).s = some l' ∧ l'.length = l.length := by
  cases so with
  | none =>
    exact ⟨rfl, le_refl _, show w.len ≤ w.len + n + 1 by omega, fun l hl => ⟨l, hl, rfl⟩⟩
  | some l0 =>
    obtain ⟨h1, h2, h3⟩ := copyN_facts (some l0) (max 1 n) 0 w
    refine ⟨h2, ?_, ?_, h3⟩
    · show w.len ≤ (copyN (some l0) 0 (max 1 n) w).len
      rw [h1]
      omega
    · show (copyN (some l0) 0 (max 1 n) w).len ≤ w.len + n + 1
      rw [h1]
      rcases Nat.le_total n 1 with h | h
      · rw [Nat.max_eq_left h]; omega
      · rw [Nat.max_eq_right h]; omega

theorem str_concat_eq (a b : Str) :
    str_concat a b =
      if (str_grow str_new ((str_len a + str_len b) % W)).2 = 0 then
        (str_grow str_new ((str_len a + str_len b) % W)).1
      else
        let w2 := concatCopy b.s b.len
          (concatCopy a.s a.len (str_grow str_new ((str_len a + str_len b) % W)).1)
        ⟨writeB w2.s w2.len 0, w2.len, w2.cap⟩ := rfl

/-- After str_concat's two copy phases into a sufficiently large fresh
buffer, writing the terminator yields an invariant-satisfying string. -/
theorem invFull_concat_finish (a b : Str) (g1 : Str) (l1 : List Nat)
    (hs : g1.s = some l1) (hlen : l1.length = g1.cap) (hcapW : g1.cap < W)
    (hbound : g1.len + (a.len + 1) + (b.len + 1) < g1.cap) :
    InvFull
      ⟨writeB (concatCopy b.s b.len (concatCopy a.s a.len g1)).s
          (concatCopy b.s b.len (concatCopy a.s a.len g1)).len 0,
        (concatCopy b.s b.len (concatCopy a.s a.len g1)).len,
        (concatCopy b.s b.len (concatCopy a.s a.len g1)).cap⟩ := by
  obtain ⟨hca, hla, hua, hsa⟩ := concatCopy_facts a.s a.len g1
  obtain ⟨hcb, hlb, hub, hsb⟩ := concatCopy_facts b.s b.len (concatCopy a.s a.len g1)
  apply invFull_term (concatCopy b.s b.len (concatCopy a.s a.len g1)) ?_ ?_ ?_
  · obtain ⟨l', hl', hlen'⟩ := hsa _ hs
    obtain ⟨l'', hl'', hlen''⟩ := hsb _ hl'
    exact ⟨l'', hl'', by omega⟩
  · omega
  · omega

theorem invFull_concat (a b : Str) (_ha : InvFull a) (_hb : InvFull b)
    (hsum : str_len a + str_len b < W) : InvFull (str_concat a b) := by
  have hmod : (str_len a + str_len b) % W = str_len a + str_len b := Nat.mod_eq_of_lt hsum
  rw [str_concat_eq, hmod]
  by_cases hD0 : str_len a + str_len b = 0
  · rw [hD0]
    have hg : str_grow str_new 0 =
        (⟨some (List.replicate 32 0 ++ List.replicate 32 junk), 0, 64⟩, 1) := by decide
    rw [hg]
    have hne : ¬ (((⟨some (List.replicate 32 0 ++ List.replicate 32 junk), 0, 64⟩ : Str),
        (1 : Int)).2 = 0) := by decide
    rw [if_neg hne]
    have ha0 : a.len = 0 := by
      simp only [str_len] at hD0; omega
    have hb0 : b.len = 0 := by
      simp only [str_len] at hD0; omega
    apply invFull_concat_finish a b
      (⟨some (List.replicate 32 0 ++ List.replicate 32 junk), 0, 64⟩ : Str)
      (List.replicate 32 0 ++ List.replicate 32 junk) rfl (by decide) (by decide)
    show 0 + (a.len + 1) + (b.len + 1) < 64
    omega
  · have hDpos : 0 < str_len a + str_len b := Nat.pos_of_ne_zero hD0
    by_cases hclamp : W - 1 - (str_len a + str_len b) < str_new.cap
    · rw [str_grow_pos_clamp str_new _ hDpos hclamp]
      rw [if_pos rfl]
      exact invFull_realloc str_new (W - 1) (List.replicate 32 0) rfl (by decide) (by decide)
        (by decide) (by decide) (by decide)
    · have h32 : str_new.cap = 32 := rfl
      have hltW : str_new.cap + (str_len a + str_len b) < W := by
        rw [h32]; omega
      rw [str_grow_pos_noclamp str_new _ hDpos (by rw [h32]; omega) hclamp hltW]
      have hne : ¬ (((⟨some (reallocL str_new.s (str_new.cap + (str_len a + str_len b))),
          str_new.len, str_new.cap + (str_len a + str_len b)⟩ : Str), (1 : Int)).2 = 0) := by
        show ¬ ((1 : Int) = 0)
        decide
      rw [if_neg hne]
      apply invFull_concat_finish a b
        (⟨some (reallocL str_new.s (str_new.cap + (str_len a + str_len b))), str_new.len,
          str_new.cap + (str_len a + str_len b)⟩ : Str)
        (reallocL str_new.s (str_new.cap + (str_len a + str_len b))) rfl
        (by rw [reallocL_length]) hltW
      show 0 + (a.len + 1) + (b.len + 1) < 32 + (a.len + b.len)
      omega

/-- A successful terminator write: when the accumulated string has an
allocated block with a cell for the terminator, `termWrite` does not fault
and restores the full invariant. -/
theorem termWrite_spec (w : Str) (l : List Nat) (hl : w.s = some l) (hlen : l.length = w.cap)
    (hcW : w.cap < W) (hlt : w.len < w.cap) :
    ∃ u, termWrite w = some u ∧ InvFull u := by
  have hbound : w.len < l.length := by omega
  refine ⟨⟨some (l.set w.len 0), w.len, w.cap⟩, ?_, ?_⟩
  · unfold termWrite
    rw [hl]
    show (if w.len < l.length then
      some (⟨some (l.set w.len 0), w.len, w.cap⟩ : Str) else none) = _
    rw [if_pos hbound]
  · have h := invFull_term w ⟨l, hl, hlen⟩ hcW hlt
    rw [hl] at h
    exact h

theorem str_append_eq (dst src : Str) :
    str_append dst src =
      if (str_reserve dst (str_len src)).2 = 0 then some (str_reserve dst (str_len src)).1
      else termWrite (copyN src.s 0 (str_len src) (str_reserve dst (str_len src)).1) := rfl

/-- str_append does not fault and preserves the invariant provided the
destination is not a zero-capacity string being appended with an empty
source (there the C code's unconditional `*dst->e = '\0'` dereferences the
NULL end pointer, or writes past the zero-sized block). -/
theorem invFull_append (dst src : Str) (hd : InvFull dst) (hs : InvFull src)
    (hnf : 0 < dst.cap ∨ 0 < str_len src) :
    ∃ u, str_append dst src = some u ∧ InvFull u := by
  obtain ⟨hdlc, hdlW⟩ := str_len_le_of_inv dst hd
  obtain ⟨hslc, hslW⟩ := str_len_le_of_inv src hs
  have hdcW := hd.1.2
  have hscW := hs.1.2
  have heq1 : str_len src = src.len := rfl
  have heq2 : str_len dst = dst.len := rfl
  rw [str_append_eq]
  by_cases hres : str_cap dst - str_len dst ≥ str_len src
  · have hr : str_reserve dst (str_len src) = (dst, -1) := by
      unfold str_reserve
      rw [if_pos hres]
    rw [hr]
    have hne : ¬ ((dst, (-1 : Int)).2 = 0) := by
      show ¬ ((-1 : Int) = 0)
      decide
    rw [if_neg hne]
    rw [show ((dst, (-1 : Int))).1 = dst from rfl]
    have hcpos : 0 < dst.cap := by
      rcases hnf with h | h
      · exact h
      · by_contra hc0
        have hz0 : str_cap dst = 0 := by
          simp [str_cap, Nat.eq_zero_of_not_pos hc0]
        rw [hz0] at hres
        omega
    obtain ⟨l, hl, hllen⟩ := str_some_of_cap_pos dst hd hcpos
    obtain ⟨hlen2, hcap2, hs2⟩ := copyN_facts src.s (str_len src) 0 dst
    obtain ⟨l2, hl2, hl2len⟩ := hs2 l hl
    have hcap' : str_cap dst = dst.cap - 1 := by
      simp [str_cap, Nat.pos_iff_ne_zero.1 hcpos]
    rw [hcap'] at hres
    exact termWrite_spec (copyN src.s 0 (str_len src) dst) l2 hl2 (by omega) (by omega)
      (by omega)
  · have hr : str_reserve dst (str_len src) = str_grow dst (str_len src) := by
      unfold str_reserve
      rw [if_neg hres]
    rw [hr]
    have hspos : 0 < str_len src := by
      by_contra h0
      exact hres (by omega)
    by_cases hc0 : dst.cap = 0
    · have hdl0 : dst.len = 0 := by omega
      have hsW : str_len src + 1 < W := by
        simp only [str_len]
        omega
      rw [str_grow_pos_cap0 dst (str_len src) hspos hc0 hsW]
      have hne : ¬ (((⟨some (reallocL dst.s (str_len src + 1)), dst.len,
          str_len src + 1⟩ : Str), (1 : Int)).2 = 0) := by
        show ¬ ((1 : Int) = 0)
        decide
      rw [if_neg hne]
      rw [show (((⟨some (reallocL dst.s (str_len src + 1)), dst.len, str_len src + 1⟩ : Str),
        (1 : Int))).1 = (⟨some (reallocL dst.s (str_len src + 1)), dst.len,
          str_len src + 1⟩ : Str) from rfl]
      obtain ⟨hlen2, hcap2, hs2⟩ := copyN_facts src.s (str_len src) 0
        (⟨some (reallocL dst.s (str_len src + 1)), dst.len, str_len src + 1⟩ : Str)
      obtain ⟨l2, hl2, hl2len⟩ := hs2 (reallocL dst.s (str_len src + 1)) rfl
      have hrl : (reallocL dst.s (str_len src + 1)).length = str_len src + 1 :=
        reallocL_length _ _
      have ecap : (⟨some (reallocL dst.s (str_len src + 1)), dst.len,
          str_len src + 1⟩ : Str).cap = str_len src + 1 := rfl
      have elen : (⟨some (reallocL dst.s (str_len src + 1)), dst.len,
          str_len src + 1⟩ : Str).len = dst.len := rfl
      rw [ecap] at hcap2
      rw [elen] at hlen2
      exact termWrite_spec _ l2 hl2 (by omega) (by omega) (by omega)
    · have hcpos : 0 < dst.cap := Nat.pos_of_ne_zero hc0
      obtain ⟨l, hl, hllen⟩ := str_some_of_cap_pos dst hd hcpos
      have hterm := hd.2.2 hcpos
      by_cases hclamp : W - 1 - str_len src < dst.cap
      · rw [str_grow_pos_clamp dst (str_len src) hspos hclamp]
        rw [if_pos rfl]
        exact ⟨_, rfl,
          invFull_realloc dst (W - 1) l hl hllen (by omega) (by omega) (by omega) hterm⟩
      · have hsumW : dst.cap + str_len src < W := by
          omega
        rw [str_grow_pos_noclamp dst (str_len src) hspos hc0 hclamp hsumW]
        have hne : ¬ (((⟨some (reallocL dst.s (dst.cap + str_len src)), dst.len,
            dst.cap + str_len src⟩ : Str), (1 : Int)).2 = 0) := by
          show ¬ ((1 : Int) = 0)
          decide
        rw [if_neg hne]
        rw [show (((⟨some (reallocL dst.s (dst.cap + str_len src)), dst.len,
          dst.cap + str_len src⟩ : Str), (1 : Int))).1 =
          (⟨some (reallocL dst.s (dst.cap + str_len src)), dst.len,
            dst.cap + str_len src⟩ : Str) from rfl]
        obtain ⟨hlen2, hcap2, hs2⟩ := copyN_facts src.s (str_len src) 0
          (⟨some (reallocL dst.s (dst.cap + str_len src)), dst.len,
            dst.cap + str_len src⟩ : Str)
        obtain ⟨l2, hl2, hl2len⟩ := hs2 (reallocL dst.s (dst.cap + str_len src)) rfl
        have hrl : (reallocL dst.s (dst.cap + str_len src)).length = dst.cap + str_len src :=
          reallocL_length _ _
        have ecap : (⟨some (reallocL dst.s (dst.cap + str_len src)), dst.len,
            dst.cap + str_len src⟩ : Str).cap = dst.cap + str_len src := rfl
        have elen : (⟨some (reallocL dst.s (dst.cap + str_len src)), dst.len,
            dst.cap + str_len src⟩ : Str).len = dst.len := rfl
        rw [ecap] at hcap2
        rw [elen] at hlen2
        exact termWrite_spec _ l2 hl2 (by omega) (by omega) (by omega)


theorem invFull_reserve (t : Str) (delta : Nat) (h : InvFull t) (hdW : delta < W)
    (hz : 0 < t.cap ∨ delta = 0) (hov : delta = 0 → 2 * t.cap < W) :
    InvFull (str_reserve t delta).1 := by
  unfold str_reserve
  by_cases hres : str_cap t - str_len t ≥ delta
  · rwa [if_pos hres]
  · rw [if_neg hres]
    exact invFull_grow t delta h hdW hz hov

/-! ### C3: the operation-indexed invariant theorem -/

/-- The public STRING operations (those that produce a string). -/
inductive StrOp where
  | mknew : StrOp
  | zeroinit : StrOp
  | free (t : Str) : StrOp
  | fromA (cs : List Nat) : StrOp
  | clone (t : Str) : StrOp
  | concat (a b : Str) : StrOp
  | truncate (t : Str) (n : Nat) : StrOp
  | reset (t : Str) : StrOp
  | set (t : Str) (i c : Nat) : StrOp
  | grow (t : Str) (delta : Nat) : StrOp
  | reserve (t : Str) (delta : Nat) : StrOp
  | compact (t : Str) : StrOp
  | append (dst src : Str) : StrOp

/-- The string produced by each operation (for `set` and `append`, the
updated string on the non-aborting, non-faulting path). -/
def runOp : StrOp → Str
  | .mknew => str_new
  | .zeroinit => strZero
  | .free t => str_free t
  | .fromA cs => str_fromA cs
  | .clone t => str_clone t
  | .concat a b => str_concat a b
  | .truncate t n => str_truncate t n
  | .reset t => str_reset t
  | .set t i c => (str_set t i c).getD t
  | .grow t delta => (str_grow t delta).1
  | .reserve t delta => (str_reserve t delta).1
  | .compact t => str_compact t
  | .append dst src => (str_append dst src).getD dst

/-- Preconditions under which the operation runs without fault and
preserves the invariant: every string argument satisfies the invariant;
`set` writes strictly below the length (at index `len` it may overwrite the
terminator); `grow`/`reserve` avoid the two paths that break the invariant
(allocating from capacity 0 with a positive delta leaves the terminator
slot uninitialized, and the `delta = 0` doubling must not overflow, where
the dead clamp wraps the capacity); `compact` is likewise kept off the
zero-capacity path; `concat` operands may not carry an allocated zero-sized
block (the do-while copy reads one byte past it); `append` onto a
zero-capacity destination needs a nonempty source (otherwise the
unconditional terminator write goes through the NULL end pointer or past
the zero-sized block); sizes stay below 2^64. -/
def OpOK : StrOp → Prop
  | .mknew => True
  | .zeroinit => True
  | .free t => InvFull t
  | .fromA cs => 0 ∈ cs
  | .clone t => InvFull t
  | .concat a b => InvFull a ∧ InvFull b ∧ str_len a + str_len b < W ∧
      (a.s = none ∨ 0 < a.cap) ∧ (b.s = none ∨ 0 < b.cap)
  | .truncate t _ => InvFull t
  | .reset t => InvFull t
  | .set t i _ => InvFull t ∧ i < str_len t
  | .grow t delta => InvFull t ∧ delta < W ∧ (0 < t.cap ∨ delta = 0) ∧
      (delta = 0 → 2 * t.cap < W)
  | .reserve t delta => InvFull t ∧ delta < W ∧ (0 < t.cap ∨ delta = 0) ∧
      (delta = 0 → 2 * t.cap < W)
  | .compact t => InvFull t ∧ 0 < t.cap
  | .append dst src => InvFull dst ∧ InvFull src ∧ (0 < dst.cap ∨ 0 < str_len src)

/-- C3 (amended): `len(str) ≤ cap(str)` and, whenever the stored capacity is
positive, the byte at offset `len(str)` is 0, for the result of every STRING
operation whose (string) arguments already satisfy the invariant — with the
carve-outs the code forces: `str_set` only below the length (at index `len`,
which its `i > len` check accepts, a nonzero byte overwrites the
terminator), `str_grow`/`str_reserve`/`str_compact` off their
uninitialized-allocation and doubling-overflow paths, `str_concat` and
`str_append` off the zero-capacity-buffer paths on which the C faults
(`OpOK`'s conditions), and sizes below 2^64.  The full inductive invariant
`InvFull` (allocation bookkeeping plus the claimed `StrInv`) is preserved,
and it entails the claimed `StrInv`. -/
theorem c3_amended (op : StrOp) (hok : OpOK op) :
    InvFull (runOp op) ∧ StrInv (runOp op) := by
  have hmain : InvFull (runOp op) := by
    cases op with
    | mknew => exact invFull_new
    | zeroinit => exact invFull_zero
    | free t => exact invFull_zero
    | fromA cs => exact invFull_fromA cs hok
    | clone t => exact invFull_clone t hok
    | concat a b => exact invFull_concat a b hok.1 hok.2.1 hok.2.2.1
    | truncate t n => exact invFull_truncate t n hok
    | reset t => exact invFull_truncate t 0 hok
    | set t i c =>
      obtain ⟨ht, hi⟩ := hok
      have hle : ¬ i > t.len := by
        simp only [str_len] at hi
        omega
      have hrun : (str_set t i c).getD t = ⟨writeB t.s i c, t.len, t.cap⟩ := by
        unfold str_set
        rw [if_neg hle]
        rfl
      show InvFull ((str_set t i c).getD t)
      rw [hrun]
      exact invFull_set t i c ⟨writeB t.s i c, t.len, t.cap⟩ ht hi
        (by unfold str_set; rw [if_neg hle])
    | grow t delta => exact invFull_grow t delta hok.1 hok.2.1 hok.2.2.1 hok.2.2.2
    | reserve t delta => exact invFull_reserve t delta hok.1 hok.2.1 hok.2.2.1 hok.2.2.2
    | compact t => exact invFull_compact t hok.1 hok.2
    | append dst src =>
      obtain ⟨u, hu, hinv⟩ := invFull_append dst src hok.1 hok.2.1 hok.2.2
      show InvFull ((str_append dst src).getD dst)
      rw [hu, Option.getD_some]
      exact hinv
  exact ⟨hmain, hmain.2⟩

/-- C3 witness: the amended theorem at the concrete operation building the
two-byte string "h" from a C literal. -/
theorem c3_amended_witness :
    InvFull (runOp (StrOp.fromA [104, 0])) ∧ StrInv (runOp (StrOp.fromA [104, 0])) :=
  c3_amended (StrOp.fromA [104, 0]) (show 0 ∈ [104, 0] by decide)

/-! ### C8: content of str_from on a NUL-terminated block -/

theorem str_grow_delta0_mk (so : Option (List Nat)) (ln cp : Nat) (hc : cp < W) :
    str_grow ⟨so, ln, cp⟩ 0 = (⟨some (reallocL so (cp * 2 % W)), ln, cp * 2 % W⟩,
      if W - 1 - cp < cp then 0 else 1) :=
  str_grow_delta0 ⟨so, ln, cp⟩ hc

/-- The copy loop of str_from, run over a block `pre ++ 0 :: rest` whose
walked prefix `pre` is NUL-free, appends exactly `pre` after the
accumulator's current end: the resulting length is `len + |pre|`, bytes
below `len` survive, and byte `len + j` equals `pre[j]`. -/
theorem fromLoop_spec (pre : List Nat) :
    ∀ (rest : List Nat) (ret : Str) (l : List Nat),
      (∀ c ∈ pre, c ≠ 0) →
      ret.s = some l → l.length = ret.cap → ret.len < ret.cap → ret.cap < W →
      ret.len + pre.length < 2 ^ 63 →
      (str_fromLoop (pre ++ 0 :: rest) ret).len = ret.len + pre.length ∧
      (∀ i, i < ret.len →
        readB (str_fromLoop (pre ++ 0 :: rest) ret).s i = readB ret.s i) ∧
      (∀ j, j < pre.length →
        readB (str_fromLoop (pre ++ 0 :: rest) ret).s (ret.len + j) = pre.getD j junk) := by
  induction pre with
  | nil =>
    intro rest ret l _ hl hllen hlt hcW hlen
    rw [List.nil_append, str_fromLoop_cons, if_pos rfl]
    refine ⟨by simp, ?_, ?_⟩
    · intro i hi
      show readB (writeB ret.s ret.len 0) i = readB ret.s i
      exact readB_writeB_ne ret.s ret.len i 0 (by omega)
    · intro j hj
      exact absurd hj (by simp)
  | cons c pre' ih =>
    intro rest ret l hz hl hllen hlt hcW hlen
    have hc : c ≠ 0 := hz c (List.mem_cons_self c pre')
    have hz' : ∀ d ∈ pre', d ≠ 0 := fun d hd => hz d (List.mem_cons_of_mem c hd)
    have hlen' : (ret.len + 1) + pre'.length < 2 ^ 63 := by
      rw [List.length_cons] at hlen
      omega
    rw [List.cons_append, str_fromLoop_cons, if_neg hc]
    by_cases hfull : ret.len + 1 = ret.cap
    · rw [if_pos hfull]
      have hW2 : W = 2 ^ 63 * 2 := by norm_num [W]
      have hcsmall : ret.cap < 2 ^ 63 := by omega
      have hstat : ¬ (W - 1 - ret.cap < ret.cap) := by omega
      have hmod : ret.cap * 2 % W = ret.cap * 2 := Nat.mod_eq_of_lt (by omega)
      rw [str_grow_delta0_mk (writeB ret.s ret.len c) (ret.len + 1) ret.cap hcW]
      rw [if_neg hstat, hmod]
      have hne : ¬ (((⟨some (reallocL (writeB ret.s ret.len c) (ret.cap * 2)), ret.len + 1,
          ret.cap * 2⟩ : Str), (1 : Int)).2 = 0) := by
        show ¬ ((1 : Int) = 0)
        decide
      rw [if_neg hne]
      rw [show (((⟨some (reallocL (writeB ret.s ret.len c) (ret.cap * 2)), ret.len + 1,
          ret.cap * 2⟩ : Str), (1 : Int))).1 =
        (⟨some (reallocL (writeB ret.s ret.len c) (ret.cap * 2)), ret.len + 1,
          ret.cap * 2⟩ : Str) from rfl]
      have hwb : writeB ret.s ret.len c = some (l.set ret.len c) := by
        rw [hl]; rfl
      obtain ⟨ih1, ih2, ih3⟩ := ih rest
        (⟨some (reallocL (writeB ret.s ret.len c) (ret.cap * 2)), ret.len + 1, ret.cap * 2⟩ : Str)
        (reallocL (writeB ret.s ret.len c) (ret.cap * 2)) hz' rfl
        (by rw [reallocL_length])
        (show ret.len + 1 < ret.cap * 2 by omega)
        (show ret.cap * 2 < W by omega)
        hlen'
      have elen : (⟨some (reallocL (writeB ret.s ret.len c) (ret.cap * 2)), ret.len + 1,
          ret.cap * 2⟩ : Str).len = ret.len + 1 := rfl
      rw [elen] at ih1 ih2 ih3
      have hsetlen : (l.set ret.len c).length = ret.cap := by
        rw [List.length_set]; exact hllen
      have hpres : ∀ i, i < ret.cap →
          readB (some (reallocL (writeB ret.s ret.len c) (ret.cap * 2))) i =
            readB (writeB ret.s ret.len c) i := by
        intro i hi
        exact readB_reallocL (writeB ret.s ret.len c) (ret.cap * 2) i
          (by rw [hwb]; simpa [hsetlen] using hi) (by omega)
      refine ⟨?_, ?_, ?_⟩
      · rw [ih1, List.length_cons]
        omega
      · intro i hi
        rw [ih2 i (by omega), hpres i (by omega)]
        exact readB_writeB_ne ret.s ret.len i c (by omega)
      · intro j hj
        cases j with
        | zero =>
          rw [List.getD_cons_zero, show ret.len + 0 = ret.len from rfl]
          rw [ih2 ret.len (by omega), hpres ret.len (by omega), hwb]
          exact readB_writeB_self l ret.len c (by omega)
        | succ j' =>
          rw [List.length_cons] at hj
          rw [List.getD_cons_succ, show ret.len + (j' + 1) = (ret.len + 1) + j' by omega]
          exact ih3 j' (by omega)
    · rw [if_neg hfull]
      have hwb : writeB ret.s ret.len c = some (l.set ret.len c) := by
        rw [hl]; rfl
      have hsetlen : (l.set ret.len c).length = ret.cap := by
        rw [List.length_set]; exact hllen
      obtain ⟨ih1, ih2, ih3⟩ := ih rest
        (⟨writeB ret.s ret.len c, ret.len + 1, ret.cap⟩ : Str) (l.set ret.len c) hz' hwb
        hsetlen (show ret.len + 1 < ret.cap by omega) hcW hlen'
      have elen : (⟨writeB ret.s ret.len c, ret.len + 1, ret.cap⟩ : Str).len = ret.len + 1 := rfl
      rw [elen] at ih1 ih2 ih3
      refine ⟨?_, ?_, ?_⟩
      · rw [ih1, List.length_cons]
        omega
      · intro i hi
        rw [ih2 i (by omega)]
        exact readB_writeB_ne ret.s ret.len i c (by omega)
      · intro j hj
        cases j with
        | zero =>
          rw [List.getD_cons_zero, show ret.len + 0 = ret.len from rfl]
          rw [ih2 ret.len (by omega), hwb]
          exact readB_writeB_self l ret.len c (by omega)
        | succ j' =>
          rw [List.length_cons] at hj
          rw [List.getD_cons_succ, show ret.len + (j' + 1) = (ret.len + 1) + j' by omega]
          exact ih3 j' (by omega)

/-- C8 (amended): str_equal(str, str_clone(str)) is true for every
invariant-satisfying string whose first `len` bytes are all nonzero (no
embedded NUL — str_clone copies through str_from, which stops at the first
0 byte) and whose length is below 2^63 (so the clone's doubling growth
cannot hit the size_t limit). -/
theorem c8_amended (t : Str) (h : InvFull t)
    (hz : ∀ i, i < str_len t → readB t.s i ≠ 0) (hlen : str_len t < 2 ^ 63) :
    str_equal t (str_clone t) = true := by
  by_cases h0 : str_len t = 0
  · have hcl : str_clone t = strZero := by
      unfold str_clone
      rw [if_pos h0]
    rw [hcl]
    unfold str_equal
    have hz0 : t.len = 0 := h0
    rw [if_neg (by rw [hz0]; exact fun hne => hne rfl)]
    rw [hz0]
    rfl
  · have hlpos : 0 < t.len := Nat.pos_of_ne_zero h0
    obtain ⟨hlc, hlW⟩ := str_len_le_of_inv t h
    have hcpos : 0 < t.cap := by omega
    obtain ⟨l, hl, hllen⟩ := str_some_of_cap_pos t h hcpos
    have hltl : t.len < l.length := by omega
    have hterm : l[t.len] = 0 := by
      have ht := h.2.2 hcpos
      rw [hl] at ht
      have hgd : l.getD t.len junk = 0 := ht
      rwa [List.getD_eq_getElem?_getD, List.getElem?_eq_getElem hltl, Option.getD_some] at hgd
    have htakelen : (l.take t.len).length = t.len := by
      rw [List.length_take]
      omega
    have hdecomp : l = l.take t.len ++ 0 :: l.drop (t.len + 1) := by
      conv_lhs => rw [← List.take_append_drop t.len l]
      rw [List.drop_eq_getElem_cons hltl, hterm]
    have hznz : ∀ c ∈ l.take t.len, c ≠ 0 := by
      intro c hc
      obtain ⟨i, hi, hig⟩ := List.mem_iff_getElem.1 hc
      have hilen : i < t.len := by
        rw [htakelen] at hi
        exact hi
      have hgi : (l.take t.len)[i] = l[i] := List.getElem_take l
      have hri : readB t.s i = l[i] := by
        rw [hl]
        show l.getD i junk = l[i]
        rw [List.getD_eq_getElem?_getD, List.getElem?_eq_getElem (by omega), Option.getD_some]
      rw [← hig, hgi, ← hri]
      exact hz i hilen
    obtain ⟨ih1, ih2, ih3⟩ := fromLoop_spec (l.take t.len) (l.drop (t.len + 1)) str_new
      (List.replicate 32 0) hznz rfl (by decide) (by decide) (by decide)
      (by rw [htakelen]; show 0 + t.len < 2 ^ 63; simpa using hlen)
    have hcl : str_clone t = str_fromLoop (l.take t.len ++ 0 :: l.drop (t.len + 1)) str_new := by
      unfold str_clone
      rw [if_neg h0]
      show str_from (str_cstr t) = _
      rw [str_cstr, hl]
      show str_fromA l = _
      unfold str_fromA
      rw [← hdecomp]
    have hclen : (str_clone t).len = t.len := by
      rw [hcl, ih1, htakelen]
      show 0 + t.len = t.len
      omega
    have hcbytes : ∀ i, i < t.len → readB (str_clone t).s i = readB t.s i := by
      intro i hi
      have hb := ih3 i (by rw [htakelen]; exact hi)
      rw [hcl]
      have hidx : str_new.len + i = i := by
        show 0 + i = i
        omega
      rw [hidx] at hb
      rw [hb]
      have htg : (l.take t.len).getD i junk = l.getD i junk := by
        rw [List.getD_eq_getElem?_getD, List.getD_eq_getElem?_getD,
          List.getElem?_take_of_lt hi]
      rw [htg, hl]
      rfl
    unfold str_equal
    rw [if_neg (by rw [hclen]; exact fun hne => hne rfl)]
    rw [List.all_eq_true]
    intro i hi
    have hilt : i < t.len := List.mem_range.1 hi
    rw [hcbytes i hilt]
    exact beq_self_eq_true _

/-- C8 witness: the amended equality at the concrete string "hi". -/
theorem c8_amended_witness :
    str_equal (str_fromA [104, 105, 0]) (str_clone (str_fromA [104, 105, 0])) = true :=
  c8_amended (str_fromA [104, 105, 0]) (by decide) (by decide) (by decide)

/-- C1 witness: the amended formula at a concrete 3-element push sequence. -/
theorem c1_amended_witness :
    (bufPushList [7, 8, 9] BUF_NEW).len = ([7, 8, 9] : List Nat).length ∧
      IsLeastPow2Ge (max 2 ([7, 8, 9] : List Nat).length) (bufPushList [7, 8, 9] BUF_NEW).cap :=
  c1_amended [7, 8, 9]
